import Mathlib

/-!
Verification of the vod-encoding-bench decision/search core.

Shallow embedding of:
* `scripts/resolution_strategy.mjs` — `getBitrateStrategy`, `adjustSearchRange`
* `scripts/scene_detect.mjs`        — `buildSegments`
* `web/app.js`                      — `adaptiveBitrateSearch` (the `decide()` engine)

JavaScript numbers are modelled as exact rationals (`ℚ`); `Math.round` is
round-half-up (`⌊x + 1/2⌋`), which matches `Math.round` on every input.
The external encode+VMAF pipeline is an oracle `score : ℕ → ℚ → ℚ`
mapping (number of previous scoring calls, candidate bitrate kbps) to a
quality score.  The engine returns `none` exactly where the JavaScript
code would crash (selection from an empty probe list).
-/

namespace VodBench

/-- JavaScript `Math.round`: round half toward positive infinity. -/
def jsRound (q : ℚ) : ℤ := ⌊q + 1/2⌋

/-- JavaScript `(+x.toFixed(3))` on the nonnegative durations used here:
round to three decimal places, half up. -/
def jsToFixed3 (q : ℚ) : ℚ := (jsRound (q * 1000) : ℚ) / 1000

/-! ## resolution_strategy.mjs -/

/-- A per-resolution bitrate search strategy (`{min, max, maxProbes}`). -/
structure BitrateStrategy where
  min : ℚ
  max : ℚ
  maxProbes : ℕ
  deriving DecidableEq, Repr

/-- `getBitrateStrategy(height)`: pick the largest tier height `≤ height`,
falling back to the 360p tier for smaller heights. -/
def getBitrateStrategy (height : ℕ) : BitrateStrategy :=
  if 2160 ≤ height then ⟨5000, 20000, 6⟩
  else if 1440 ≤ height then ⟨3000, 12000, 6⟩
  else if 1080 ≤ height then ⟨1500, 10000, 6⟩
  else if 720 ≤ height then ⟨800, 5000, 5⟩
  else if 480 ≤ height then ⟨400, 2500, 5⟩
  else ⟨300, 1500, 4⟩

/-- The previous segment's decision, as consumed by `adjustSearchRange`. -/
structure PrevResult where
  chosenBitrateKbps : ℚ
  estVmaf : ℚ
  deriving DecidableEq, Repr

/-- `adjustSearchRange(strategy, previousResult, targetVmaf)` from
`resolution_strategy.mjs`, returning the `(min, max)` pair. -/
def adjustSearchRange (strategy : BitrateStrategy) (previousResult : Option PrevResult)
    (targetVmaf : ℚ) : ℚ × ℚ :=
  match previousResult with
  | none => (strategy.min, strategy.max)
  | some prev =>
    let vmafGap := targetVmaf - prev.estVmaf
    if |vmafGap| < 3 then
      (max strategy.min (jsRound (prev.chosenBitrateKbps * (7/10)) : ℚ),
       min strategy.max (jsRound (prev.chosenBitrateKbps * (13/10)) : ℚ))
    else if vmafGap > 0 then
      let multiplier := 1 + vmafGap / 100
      (max strategy.min prev.chosenBitrateKbps,
       min strategy.max (jsRound (prev.chosenBitrateKbps * multiplier * (3/2)) : ℚ))
    else
      let multiplier := 1 + vmafGap / 100
      (max strategy.min (jsRound (prev.chosenBitrateKbps * multiplier * (7/10)) : ℚ),
       min strategy.max prev.chosenBitrateKbps)

/-! ## scene_detect.mjs -/

/-- One output segment of `buildSegments` (`{start, dur, end}`). -/
structure Seg where
  start : ℚ
  dur : ℚ
  endTime : ℚ
  deriving DecidableEq, Repr

/-- The `while (curStart < totalDur - 0.01)` loop of `buildSegments`.
The persistent index `idx` into the cut array is modelled by carrying the
remaining suffix `rest` of the cut list; `fuel` bounds the iteration count
(the caller passes enough fuel for the loop to run to completion). -/
def buildSegmentsAux (minDurSec maxDurSec totalDur : ℚ) :
    ℕ → ℚ → List ℚ → List Seg
  | 0, _, _ => []
  | fuel + 1, curStart, rest =>
    if curStart < totalDur - 1/100 then
      let minT := curStart + minDurSec
      let maxT := min (curStart + maxDurSec) totalDur
      let rest2 := rest.dropWhile (fun c => decide (c < minT))
      let picks := rest2.takeWhile (fun c => decide (c ≤ maxT))
      let pickEnd := picks.getLast?.getD maxT
      ⟨curStart, jsToFixed3 (pickEnd - curStart), pickEnd⟩ ::
        buildSegmentsAux minDurSec maxDurSec totalDur fuel pickEnd rest2
    else []

/-- `buildSegments(sceneCuts, totalDur, minDurSec, maxDurSec)`: split
`[0, totalDur)` at scene cuts subject to the min/max duration window. -/
def buildSegments (sceneCuts : List ℚ) (totalDur : ℚ)
    (minDurSec : ℚ := 4) (maxDurSec : ℚ := 8) : List Seg :=
  buildSegmentsAux minDurSec maxDurSec totalDur (⌊totalDur / minDurSec⌋.toNat + 2) 0 sceneCuts

/-! ## web/app.js — adaptiveBitrateSearch -/

/-- One recorded probe (`{kbps, vmaf}`). -/
structure Probe where
  kbps : ℚ
  vmaf : ℚ
  deriving DecidableEq, Repr

/-- Insert `p` into an already-sorted list, before the first element that
does not precede it.  Ties keep `p` first, so folding with `jsSort` below
yields exactly the stable sort `Array.prototype.sort` performs. -/
def insertSorted (le : α → α → Bool) (p : α) : List α → List α
  | [] => [p]
  | q :: rest => if le p q then p :: q :: rest else q :: insertSorted le p rest

/-- Stable sort, modelling `Array.prototype.sort` with a consistent
comparator: `le a b` means the comparator orders `a` no later than `b`. -/
def jsSort (le : α → α → Bool) : List α → List α
  | [] => []
  | p :: rest => insertSorted le p (jsSort le rest)

/-- The binary-search probe loop of `adaptiveBitrateSearch`
(`while (probeCount < maxProbes && maxBitrate - minBitrate > 200)`).
`remaining = maxProbes - probeCount`; since probes are only ever appended,
`probeCount = acc.length` throughout.  Returns the recorded probes and the
final `(minBitrate, maxBitrate)` bracket. -/
def searchLoop (score : ℕ → ℚ → ℚ) (targetMin targetMax : ℚ) :
    ℕ → ℚ → ℚ → ℚ → List Probe → List Probe × ℚ × ℚ
  | 0, minB, maxB, _cur, acc => (acc, minB, maxB)
  | remaining + 1, minB, maxB, cur, acc =>
    if maxB - minB > 200 then
      let v := score acc.length cur
      let acc2 := acc ++ [⟨cur, v⟩]
      -- `if (vmafScore >= targetMin && vmafScore <= targetMax)` then break
      -- when some recorded probe is in range (the probe just recorded always is)
      if targetMin ≤ v ∧ v ≤ targetMax ∧
          (acc2.filter (fun r => decide (targetMin ≤ r.vmaf ∧ r.vmaf ≤ targetMax))).length > 0 then
        (acc2, minB, maxB)
      else
        let minB2 := if targetMax < v then minB else if v < targetMin then cur else minB
        let maxB2 := if targetMax < v then cur else if v < targetMin then maxB else cur
        let next : ℚ := (jsRound ((minB2 + maxB2) / 2) : ℚ)
        if next = cur ∨ |next - cur| < 100 then (acc2, minB2, maxB2)
        else searchLoop score targetMin targetMax remaining minB2 maxB2 next acc2
    else (acc, minB, maxB)

/-- All probes recorded by one `adaptiveBitrateSearch` call: the binary
search loop followed by the optional bonus probe at
`min(strategy.max, 1.5 × maxBitrate)` when no probe reached `targetMin`
and probe budget remains. -/
def recordedProbes (score : ℕ → ℚ → ℚ) (strategy : BitrateStrategy)
    (lo hi targetMin targetMax : ℚ) : List Probe :=
  let r := searchLoop score targetMin targetMax strategy.maxProbes lo hi
      (jsRound ((lo + hi) / 2) : ℚ) []
  let probes := r.1
  if (probes.filter (fun p => decide (targetMin ≤ p.vmaf))).length = 0 ∧
      probes.length < strategy.maxProbes then
    let highBitrate := min strategy.max (r.2.2 * (3/2))
    probes ++ [⟨highBitrate, score probes.length highBitrate⟩]
  else probes

/-- The selection stage of `adaptiveBitrateSearch`: (a) lowest-bitrate
probe scoring within `[targetMin, targetMax]`; (b) else lowest-bitrate
probe scoring `≥ targetMin`; (c) else the probe with the highest score.
`none` when no probe was recorded (the JavaScript code would crash). -/
def selectDecision (targetMin targetMax : ℚ) (probes : List Probe) : Option Probe :=
  let inRange := jsSort (fun a b => decide (a.kbps ≤ b.kbps))
      (probes.filter (fun r => decide (targetMin ≤ r.vmaf ∧ r.vmaf ≤ targetMax)))
  match inRange with
  | chosen :: _ => some chosen
  | [] =>
    let acceptable := jsSort (fun a b => decide (a.kbps ≤ b.kbps))
        (probes.filter (fun r => decide (targetMin ≤ r.vmaf)))
    match acceptable with
    | chosen :: _ => some chosen
    | [] => (jsSort (fun a b => decide (b.vmaf ≤ a.vmaf)) probes).head?

/-- The engine's output (`SegmentDecision`): chosen bitrate, its estimated
quality, and `probesUsed` (scoring calls, excluding the reference encode). -/
structure SegmentDecision where
  chosenBitrateKbps : ℚ
  estVmaf : ℚ
  probesUsed : ℕ
  deriving DecidableEq, Repr

/-- `adaptiveBitrateSearch` for an explicit strategy record: adjust the
search range from the previous result, run the probe loop and bonus probe,
then select. -/
def adaptiveBitrateSearchCore (score : ℕ → ℚ → ℚ) (strategy : BitrateStrategy)
    (previousSegmentResult : Option PrevResult) (targetVmaf : ℚ) : Option SegmentDecision :=
  let r := adjustSearchRange strategy previousSegmentResult targetVmaf
  let targetMin := targetVmaf
  let targetMax := targetVmaf + 1/2
  let probes := recordedProbes score strategy r.1 r.2 targetMin targetMax
  (selectDecision targetMin targetMax probes).map
    (fun chosen => ⟨chosen.kbps, chosen.vmaf, probes.length⟩)

/-- `adaptiveBitrateSearch` as called in `web/app.js`: the strategy comes
from `getBitrateStrategy(height)`. -/
def adaptiveBitrateSearch (score : ℕ → ℚ → ℚ) (height : ℕ)
    (previousSegmentResult : Option PrevResult) (targetVmaf : ℚ) : Option SegmentDecision :=
  adaptiveBitrateSearchCore score (getBitrateStrategy height) previousSegmentResult targetVmaf

/-- The deterministic synthetic oracle `score(b) = clamp(b/100, 0, 100)`
used by the spec's convergence scenario. -/
def clampScore (_n : ℕ) (b : ℚ) : ℚ := min 100 (max 0 (b / 100))

/-- A previous result is well formed for a strategy when its chosen
bitrate is an integer kbps value inside the strategy's base range. -/
def wellFormedPrev (strategy : BitrateStrategy) : Option PrevResult → Prop
  | none => True
  | some p => ∃ n : ℕ, p.chosenBitrateKbps = (n : ℚ) ∧
      strategy.min ≤ (n : ℚ) ∧ (n : ℚ) ≤ strategy.max

end VodBench

namespace VodBench

/-! ## Arithmetic facts about `jsRound` -/

lemma jsRound_le_nat (n : ℕ) (c : ℚ) (hc : c ≤ 1) :
    (jsRound ((n : ℚ) * c) : ℚ) ≤ (n : ℚ) := by
  have h2 : jsRound ((n : ℚ) * c) < (n : ℤ) + 1 := by
    rw [jsRound, Int.floor_lt]
    push_cast
    nlinarith [Nat.cast_nonneg (α := ℚ) n]
  exact_mod_cast Int.lt_add_one_iff.mp h2

lemma nat_le_jsRound (n : ℕ) (c : ℚ) (hc : 1 ≤ c) :
    (n : ℚ) ≤ (jsRound ((n : ℚ) * c) : ℚ) := by
  have h2 : (n : ℤ) ≤ jsRound ((n : ℚ) * c) := by
    rw [jsRound, Int.le_floor]
    push_cast
    nlinarith [Nat.cast_nonneg (α := ℚ) n]
  exact_mod_cast h2

lemma jsRound_mono {a b : ℚ} (h : a ≤ b) : (jsRound a : ℚ) ≤ (jsRound b : ℚ) := by
  have : jsRound a ≤ jsRound b := Int.floor_le_floor (by linarith)
  exact_mod_cast this

lemma int_le_jsRound_mid (i j : ℤ) (h : (i : ℚ) ≤ (j : ℚ)) :
    (i : ℚ) ≤ (jsRound (((i : ℚ) + (j : ℚ)) / 2) : ℚ) ∧
      (jsRound (((i : ℚ) + (j : ℚ)) / 2) : ℚ) ≤ (j : ℚ) := by
  constructor
  · have : i ≤ jsRound (((i : ℚ) + (j : ℚ)) / 2) := by
      rw [jsRound, Int.le_floor]; linarith
    exact_mod_cast this
  · have : jsRound (((i : ℚ) + (j : ℚ)) / 2) < j + 1 := by
      rw [jsRound, Int.floor_lt]; push_cast; linarith
    exact_mod_cast Int.lt_add_one_iff.mp this

/-! ## Range adjustment: well-formedness -/

lemma adjustSearchRange_wf (strategy : BitrateStrategy) (prev : Option PrevResult)
    (targetVmaf : ℚ) (hs : strategy.min ≤ strategy.max)
    (hwf : wellFormedPrev strategy prev) :
    strategy.min ≤ (adjustSearchRange strategy prev targetVmaf).1 ∧
      (adjustSearchRange strategy prev targetVmaf).1 ≤
        (adjustSearchRange strategy prev targetVmaf).2 ∧
      (adjustSearchRange strategy prev targetVmaf).2 ≤ strategy.max := by
  cases prev with
  | none => simpa [adjustSearchRange] using hs
  | some p =>
    obtain ⟨n, hn, hlo, hhi⟩ := hwf
    have hn0 : (0 : ℚ) ≤ (n : ℚ) := Nat.cast_nonneg n
    simp only [adjustSearchRange, hn]
    split_ifs with h1 h2
    · refine ⟨le_max_left _ _, max_le (le_min hs ?_) (le_min ?_ ?_), min_le_left _ _⟩
      · exact le_trans hlo (nat_le_jsRound n (13/10) (by norm_num))
      · exact le_trans (jsRound_le_nat n (7/10) (by norm_num)) hhi
      · exact le_trans (jsRound_le_nat n (7/10) (by norm_num))
          (nat_le_jsRound n (13/10) (by norm_num))
    · have hm : (1 : ℚ) ≤ (1 + (targetVmaf - p.estVmaf) / 100) * (3/2) := by
        nlinarith
      rw [mul_assoc]
      refine ⟨le_max_left _ _, max_le (le_min hs ?_) (le_min hhi ?_), min_le_left _ _⟩
      · exact le_trans hlo (nat_le_jsRound n _ hm)
      · exact nat_le_jsRound n _ hm
    · have hg : targetVmaf - p.estVmaf ≤ 0 := le_of_not_lt h2
      have hm : (1 + (targetVmaf - p.estVmaf) / 100) * (7/10) ≤ 1 := by nlinarith
      rw [mul_assoc]
      refine ⟨le_max_left _ _, max_le (le_min hs hlo)
        (le_min (le_trans (jsRound_le_nat n _ hm) hhi) (jsRound_le_nat n _ hm)),
        min_le_left _ _⟩

lemma adjustSearchRange_int (zmin zmax : ℤ) (k : ℕ) (n : ℕ) (est tv : ℚ) :
    ∃ i j : ℤ,
      adjustSearchRange ⟨(zmin : ℚ), (zmax : ℚ), k⟩ (some ⟨(n : ℚ), est⟩) tv =
        ((i : ℚ), (j : ℚ)) := by
  simp only [adjustSearchRange]
  split_ifs
  · exact ⟨max zmin (jsRound ((n : ℚ) * (7/10))),
      min zmax (jsRound ((n : ℚ) * (13/10))), by push_cast; rfl⟩
  · exact ⟨max zmin (n : ℤ),
      min zmax (jsRound ((n : ℚ) * (1 + (tv - est) / 100) * (3/2))), by push_cast; rfl⟩
  · exact ⟨max zmin (jsRound ((n : ℚ) * (1 + (tv - est) / 100) * (7/10))),
      min zmax (n : ℤ), by push_cast; rfl⟩

/-! ## Claim theorems for the range adjuster and strategy table -/

/-- **C3** (corrected): the claim as stated quantifies over previous results whose
bitrate may lie outside the base range; there the output can escape the range.
This counterexample uses the 1080p strategy with a previous bitrate of
100000 kbps: the adjusted minimum is 70000, far above `strategy.max = 10000`. -/
theorem claim_C3_counterexample :
    adjustSearchRange ⟨1500, 10000, 6⟩ (some ⟨100000, 95⟩) 95 = (70000, 10000) ∧
      ¬ ((70000 : ℚ) ≤ 10000) := by
  constructor
  · simp only [adjustSearchRange]
    norm_num [jsRound]
  · norm_num

/-- **C3** (amended): for every base strategy with `min ≤ max` and every
previous result whose chosen bitrate is an integer kbps value lying inside
the base range (and for `previousResult = null`), both endpoints returned by
`adjustSearchRange` lie within `[strategy.min, strategy.max]`. -/
theorem claim_C3 (strategy : BitrateStrategy) (prev : Option PrevResult) (targetVmaf : ℚ)
    (hs : strategy.min ≤ strategy.max) (hwf : wellFormedPrev strategy prev) :
    strategy.min ≤ (adjustSearchRange strategy prev targetVmaf).1 ∧
      (adjustSearchRange strategy prev targetVmaf).1 ≤ strategy.max ∧
      strategy.min ≤ (adjustSearchRange strategy prev targetVmaf).2 ∧
      (adjustSearchRange strategy prev targetVmaf).2 ≤ strategy.max := by
  obtain ⟨ha, hb, hc⟩ := adjustSearchRange_wf strategy prev targetVmaf hs hwf
  exact ⟨ha, le_trans hb hc, le_trans ha hb, hc⟩

theorem claim_C3_witness :
    ((⟨1500, 10000, 6⟩ : BitrateStrategy).min ≤ (⟨1500, 10000, 6⟩ : BitrateStrategy).max ∧
      wellFormedPrev ⟨1500, 10000, 6⟩ (some ⟨3000, 94.5⟩)) ∧
    ((⟨1500, 10000, 6⟩ : BitrateStrategy).min ≤
        (adjustSearchRange ⟨1500, 10000, 6⟩ (some ⟨3000, 94.5⟩) 95).1 ∧
      (adjustSearchRange ⟨1500, 10000, 6⟩ (some ⟨3000, 94.5⟩) 95).1 ≤
        (⟨1500, 10000, 6⟩ : BitrateStrategy).max ∧
      (⟨1500, 10000, 6⟩ : BitrateStrategy).min ≤
        (adjustSearchRange ⟨1500, 10000, 6⟩ (some ⟨3000, 94.5⟩) 95).2 ∧
      (adjustSearchRange ⟨1500, 10000, 6⟩ (some ⟨3000, 94.5⟩) 95).2 ≤
        (⟨1500, 10000, 6⟩ : BitrateStrategy).max) := by
  have hwf : wellFormedPrev ⟨1500, 10000, 6⟩ (some ⟨3000, 94.5⟩) :=
    ⟨3000, by norm_num, by norm_num, by norm_num⟩
  exact ⟨⟨by norm_num, hwf⟩, claim_C3 ⟨1500, 10000, 6⟩ (some ⟨3000, 94.5⟩) 95 (by norm_num) hwf⟩

/-- **C9** (confirmed): `getBitrateStrategy` is monotone in `max` as a function
of the requested height. -/
theorem claim_C9 (h1 h2 : ℕ) (hle : h1 ≤ h2) :
    (getBitrateStrategy h1).max ≤ (getBitrateStrategy h2).max := by
  unfold getBitrateStrategy
  split_ifs <;> first | omega | norm_num

theorem claim_C9_witness :
    720 ≤ 1080 ∧ (getBitrateStrategy 720).max ≤ (getBitrateStrategy 1080).max :=
  ⟨by norm_num, claim_C9 720 1080 (by norm_num)⟩

/-- **C10** (corrected): with a fractional previous bitrate inside the base
range the adjusted interval can be empty.  Strategy `{min: 0, max: 10}`,
previous result `(0.9 kbps, VMAF 99)`, target 95: the adjusted range is
`(1, 0.9)`, whose min exceeds its max. -/
theorem claim_C10_counterexample :
    adjustSearchRange ⟨0, 10, 6⟩ (some ⟨9/10, 99⟩) 95 = (1, 9/10) ∧
      ¬ ((1 : ℚ) ≤ 9/10) := by
  constructor
  · simp only [adjustSearchRange]
    norm_num [jsRound]
  · norm_num

/-- **C10** (amended): when the strategy endpoints are integers (as in the
static table) and the previous chosen bitrate is an integer kbps value inside
`[strategy.min, strategy.max]`, the adjusted interval satisfies `min ≤ max`
and the engine's initial midpoint candidate `round((min+max)/2)` lies inside
the adjusted interval. -/
theorem claim_C10 (zmin zmax : ℤ) (k : ℕ) (n : ℕ) (est tv : ℚ)
    (hs : (zmin : ℚ) ≤ (zmax : ℚ)) (hlo : (zmin : ℚ) ≤ (n : ℚ)) (hhi : (n : ℚ) ≤ (zmax : ℚ)) :
    (adjustSearchRange ⟨(zmin : ℚ), (zmax : ℚ), k⟩ (some ⟨(n : ℚ), est⟩) tv).1 ≤
        (adjustSearchRange ⟨(zmin : ℚ), (zmax : ℚ), k⟩ (some ⟨(n : ℚ), est⟩) tv).2 ∧
      (adjustSearchRange ⟨(zmin : ℚ), (zmax : ℚ), k⟩ (some ⟨(n : ℚ), est⟩) tv).1 ≤
        (jsRound (((adjustSearchRange ⟨(zmin : ℚ), (zmax : ℚ), k⟩ (some ⟨(n : ℚ), est⟩) tv).1 +
          (adjustSearchRange ⟨(zmin : ℚ), (zmax : ℚ), k⟩ (some ⟨(n : ℚ), est⟩) tv).2) / 2) : ℚ) ∧
      (jsRound (((adjustSearchRange ⟨(zmin : ℚ), (zmax : ℚ), k⟩ (some ⟨(n : ℚ), est⟩) tv).1 +
          (adjustSearchRange ⟨(zmin : ℚ), (zmax : ℚ), k⟩ (some ⟨(n : ℚ), est⟩) tv).2) / 2) : ℚ) ≤
        (adjustSearchRange ⟨(zmin : ℚ), (zmax : ℚ), k⟩ (some ⟨(n : ℚ), est⟩) tv).2 := by
  have hwf : wellFormedPrev ⟨(zmin : ℚ), (zmax : ℚ), k⟩ (some ⟨(n : ℚ), est⟩) :=
    ⟨n, rfl, hlo, hhi⟩
  obtain ⟨-, hab, -⟩ := adjustSearchRange_wf _ _ tv hs hwf
  obtain ⟨i, j, hij⟩ := adjustSearchRange_int zmin zmax k n est tv
  rw [hij] at hab ⊢
  obtain ⟨hm1, hm2⟩ := int_le_jsRound_mid i j hab
  exact ⟨hab, hm1, hm2⟩

theorem claim_C10_witness :
    ((1500 : ℚ) ≤ (10000 : ℚ) ∧ (1500 : ℚ) ≤ ((3000 : ℕ) : ℚ) ∧ ((3000 : ℕ) : ℚ) ≤ (10000 : ℚ)) ∧
    ((adjustSearchRange ⟨((1500 : ℤ) : ℚ), ((10000 : ℤ) : ℚ), 6⟩
        (some ⟨((3000 : ℕ) : ℚ), 94.5⟩) 95).1 ≤
      (adjustSearchRange ⟨((1500 : ℤ) : ℚ), ((10000 : ℤ) : ℚ), 6⟩
        (some ⟨((3000 : ℕ) : ℚ), 94.5⟩) 95).2) := by
  refine ⟨⟨by norm_num, by norm_num, by norm_num⟩, ?_⟩
  exact (claim_C10 1500 10000 6 3000 94.5 95 (by norm_num) (by norm_num) (by norm_num)).1

end VodBench

namespace VodBench

/-! ## Scene segmentation: the partition chain property -/

/-- `segChain totalDur s l`: the segments `l` tile `[s, e)` consecutively —
the first starts at `s`, each next one starts where the previous ended,
ends are strictly increasing and bounded by `totalDur`, and the final end
is within `0.01` of `totalDur` (the loop guard's tolerance). -/
def segChain (totalDur : ℚ) : ℚ → List Seg → Prop
  | s, [] => ¬ (s < totalDur - 1/100)
  | s, seg :: rest => seg.start = s ∧ s < seg.endTime ∧ seg.endTime ≤ totalDur ∧
      segChain totalDur seg.endTime rest

lemma sorted_dropWhile_ge {l : List ℚ} (hs : List.Sorted (· < ·) l) (t : ℚ) :
    ∀ x ∈ l.dropWhile (fun c => decide (c < t)), t ≤ x := by
  induction l with
  | nil => simp [List.dropWhile]
  | cons c tl ih =>
    intro x hx
    rw [List.dropWhile_cons] at hx
    by_cases hc : c < t
    · simp only [hc, decide_True] at hx
      exact ih hs.of_cons x hx
    · simp only [hc, decide_False] at hx
      rcases List.mem_cons.mp hx with rfl | hx
      · exact not_lt.mp hc
      · exact le_trans (not_lt.mp hc) (le_of_lt ((List.sorted_cons.mp hs).1 x hx))

lemma pickEnd_le_totalDur (minD maxD totalDur s : ℚ) (rest : List ℚ) :
    (((rest.dropWhile (fun c => decide (c < s + minD))).takeWhile
        (fun c => decide (c ≤ min (s + maxD) totalDur))).getLast?).getD
      (min (s + maxD) totalDur) ≤ totalDur := by
  rcases hlast : ((rest.dropWhile (fun c => decide (c < s + minD))).takeWhile
      (fun c => decide (c ≤ min (s + maxD) totalDur))).getLast? with - | c
  · rw [Option.getD_none]
    exact min_le_right _ _
  · rw [Option.getD_some]
    have hcmem := List.mem_of_mem_getLast? hlast
    have hdec := List.mem_takeWhile_imp hcmem
    exact le_trans (of_decide_eq_true hdec) (min_le_right _ _)

lemma pickEnd_key (minD maxD totalDur s : ℚ) (rest : List ℚ)
    (hs : List.Sorted (· < ·) rest) (hminmax : minD ≤ maxD) :
    s + minD ≤ (((rest.dropWhile (fun c => decide (c < s + minD))).takeWhile
        (fun c => decide (c ≤ min (s + maxD) totalDur))).getLast?).getD
      (min (s + maxD) totalDur) ∨
    (((rest.dropWhile (fun c => decide (c < s + minD))).takeWhile
        (fun c => decide (c ≤ min (s + maxD) totalDur))).getLast?).getD
      (min (s + maxD) totalDur) = totalDur := by
  rcases hlast : ((rest.dropWhile (fun c => decide (c < s + minD))).takeWhile
      (fun c => decide (c ≤ min (s + maxD) totalDur))).getLast? with - | c
  · rw [Option.getD_none]
    rcases le_total (s + maxD) totalDur with hcase | hcase
    · left
      rw [min_eq_left hcase]
      linarith
    · right
      rw [min_eq_right hcase]
  · rw [Option.getD_some]
    left
    have hcmem := List.mem_of_mem_getLast? hlast
    have hcrest2 := (List.takeWhile_sublist _).mem hcmem
    exact sorted_dropWhile_ge hs (s + minD) c hcrest2

lemma buildSegmentsAux_chain (minD maxD totalDur : ℚ) (hmin : 0 < minD)
    (hminmax : minD ≤ maxD) :
    ∀ (n : ℕ) (s : ℚ) (rest : List ℚ), List.Sorted (· < ·) rest →
      totalDur - s ≤ (n : ℚ) * minD →
      segChain totalDur s (buildSegmentsAux minD maxD totalDur (n + 1) s rest) := by
  intro n
  induction n with
  | zero =>
    intro s rest _hs hfuel
    have hng : ¬ (s < totalDur - 1/100) := by
      simp only [Nat.cast_zero, zero_mul] at hfuel
      intro h
      linarith
    rw [buildSegmentsAux, if_neg hng]
    exact hng
  | succ m ih =>
    intro s rest hs hfuel
    by_cases hguard : s < totalDur - 1/100
    · rw [buildSegmentsAux, if_pos hguard]
      dsimp only []
      have hkey := pickEnd_key minD maxD totalDur s rest hs hminmax
      have hle := pickEnd_le_totalDur minD maxD totalDur s rest
      have hgt : s < (((rest.dropWhile (fun c => decide (c < s + minD))).takeWhile
          (fun c => decide (c ≤ min (s + maxD) totalDur))).getLast?).getD
            (min (s + maxD) totalDur) := by
        rcases hkey with h | h
        · linarith
        · rw [h]
          linarith
      refine ⟨rfl, hgt, hle, ?_⟩
      apply ih _ _ (List.Pairwise.sublist (List.dropWhile_sublist _) hs)
      push_cast at hfuel ⊢
      rcases hkey with h | h
      · linarith
      · rw [h]
        have : (0:ℚ) ≤ (m : ℚ) * minD := by positivity
        linarith
    · rw [buildSegmentsAux, if_neg hguard]
      exact hguard

/-- **C4** (amended): for every ascending duplicate-free cut list and
`0 < minDur ≤ maxDur`, `buildSegments` tiles an initial interval `[0, e)`
with no gaps and no overlaps: the first segment starts at `0`, each later
segment starts where the previous one ends, segment ends increase strictly
and never exceed `totalDuration`, and the final end `e` satisfies
`totalDuration - 0.01 ≤ e ≤ totalDuration`.  As the counterexample shows,
`e` can fall short of `totalDuration` by up to `0.01` when a scene cut
lying within `0.01` of the end is selected, so the claim's "the last
segment ends at totalDuration" holds only up to that tolerance. -/
theorem claim_C4 (cuts : List ℚ) (totalDur minD maxD : ℚ)
    (hs : List.Sorted (· < ·) cuts) (hmin : 0 < minD) (hminmax : minD ≤ maxD) :
    segChain totalDur 0 (buildSegments cuts totalDur minD maxD) := by
  rw [buildSegments]
  have hshape : ⌊totalDur / minD⌋.toNat + 2 = (⌊totalDur / minD⌋.toNat + 1) + 1 := rfl
  rw [hshape]
  apply buildSegmentsAux_chain minD maxD totalDur hmin hminmax (⌊totalDur / minD⌋.toNat + 1) 0 cuts hs
  have h1 : totalDur / minD < (⌊totalDur / minD⌋ : ℚ) + 1 := Int.lt_floor_add_one _
  have h2 : ((⌊totalDur / minD⌋ : ℤ) : ℚ) ≤ ((⌊totalDur / minD⌋.toNat : ℕ) : ℚ) := by
    exact_mod_cast Int.self_le_toNat _
  have h3 : totalDur / minD * minD ≤ (((⌊totalDur / minD⌋.toNat : ℕ) : ℚ) + 1) * minD := by
    apply mul_le_mul_of_nonneg_right _ (le_of_lt hmin)
    linarith
  rw [div_mul_cancel₀ _ (ne_of_gt hmin)] at h3
  push_cast
  linarith

/-- **C4** (counterexample to the claim as stated): with the ascending cut
list `[29.995]`, `totalDuration = 30 > 0` and `minDur = 4 ≤ maxDur = 8`,
the cut `29.995` (inside the final window `[28, 30]`) becomes the last
segment end, so the output ends at `29.995 ≠ 30`, leaving `[29.995, 30)`
uncovered. -/
theorem claim_C4_counterexample :
    (buildSegments [29995/1000] 30 4 8).map (fun seg => (seg.start, seg.endTime)) =
      [(0, 8), (8, 16), (16, 24), (24, 29995/1000)] ∧
      ¬ ((29995 / 1000 : ℚ) = 30) := by
  constructor
  · have hf : (⌊(30 : ℚ) / 4⌋.toNat + 2) = 9 := by
      norm_num
      decide
    rw [buildSegments, hf]
    norm_num [buildSegmentsAux, List.dropWhile, List.takeWhile,
      List.getLast?_nil, List.getLast?_singleton, List.getLast?_cons_cons]
  · norm_num

theorem claim_C4_witness :
    (List.Sorted (· < ·) [(26/5 : ℚ), 25/2, 183/10, 128/5] ∧ (0 : ℚ) < 4 ∧ (4 : ℚ) ≤ 8) ∧
      segChain 30 0 (buildSegments [26/5, 25/2, 183/10, 128/5] 30 4 8) := by
  have hsorted : List.Sorted (· < ·) [(26/5 : ℚ), 25/2, 183/10, 128/5] := by
    simp only [List.sorted_cons, List.mem_cons, List.mem_singleton, List.not_mem_nil]
    norm_num
  exact ⟨⟨hsorted, by norm_num, by norm_num⟩,
    claim_C4 [26/5, 25/2, 183/10, 128/5] 30 4 8 hsorted (by norm_num) (by norm_num)⟩

/-- **C8** (confirmed): the spec's concrete segmentation scenario.
`buildSegments([5.2, 12.5, 18.3, 25.6], 30.0, 4.0, 8.0)` yields exactly
five segments with `(start, end)` pairs
`(0,5.2), (5.2,12.5), (12.5,18.3), (18.3,25.6), (25.6,30)`. -/
theorem claim_C8 :
    (buildSegments [5.2, 12.5, 18.3, 25.6] 30 4 8).map
        (fun seg => (seg.start, seg.endTime)) =
      [(0, 5.2), (5.2, 12.5), (12.5, 18.3), (18.3, 25.6), (25.6, 30)] := by
  have hf : (⌊(30 : ℚ) / 4⌋.toNat + 2) = 9 := by
    norm_num
    decide
  rw [buildSegments, hf]
  norm_num [buildSegmentsAux, List.dropWhile, List.takeWhile,
    List.getLast?_nil, List.getLast?_singleton, List.getLast?_cons_cons]

end VodBench

namespace VodBench

/-! ## Stable sort: membership and head-minimality -/

lemma insertSorted_ne_nil (le : α → α → Bool) (p : α) (l : List α) :
    insertSorted le p l ≠ [] := by
  cases l with
  | nil => simp [insertSorted]
  | cons q rest =>
    rw [insertSorted]
    split_ifs <;> simp

lemma mem_insertSorted (le : α → α → Bool) (p : α) (l : List α) (x : α) :
    x ∈ insertSorted le p l ↔ x = p ∨ x ∈ l := by
  induction l with
  | nil => simp [insertSorted]
  | cons q rest ih =>
    rw [insertSorted]
    split_ifs with h
    · simp [List.mem_cons]
    · simp only [List.mem_cons, ih]
      tauto

lemma mem_jsSort (le : α → α → Bool) (l : List α) (x : α) :
    x ∈ jsSort le l ↔ x ∈ l := by
  induction l with
  | nil => simp [jsSort]
  | cons p rest ih =>
    rw [jsSort, mem_insertSorted]
    simp only [List.mem_cons, ih]

lemma jsSort_eq_nil_iff (le : α → α → Bool) (l : List α) :
    jsSort le l = [] ↔ l = [] := by
  cases l with
  | nil => simp [jsSort]
  | cons p rest =>
    simp only [jsSort]
    refine ⟨fun h => absurd h (insertSorted_ne_nil le p _), fun h => by simp at h⟩

lemma jsSort_head_min (f : α → ℚ) (le : α → α → Bool)
    (hle : ∀ a b, le a b = true ↔ f a ≤ f b) :
    ∀ (l : List α) (c : α) (tl : List α), jsSort le l = c :: tl →
      ∀ x ∈ l, f c ≤ f x := by
  intro l
  induction l with
  | nil => intro c tl h; simp [jsSort] at h
  | cons p rest ih =>
    intro c tl h x hx
    rw [jsSort] at h
    rcases hrest : jsSort le rest with - | ⟨q, t⟩
    · rw [hrest, insertSorted] at h
      injection h with h1 h2
      subst h1
      have hrestnil : rest = [] := (jsSort_eq_nil_iff le rest).mp hrest
      subst hrestnil
      rcases List.mem_cons.mp hx with rfl | hx'
      · exact le_refl _
      · exact absurd hx' (List.not_mem_nil x)
    · rw [hrest, insertSorted] at h
      by_cases hpq : le p q = true
      · rw [if_pos hpq] at h
        injection h with h1 h2
        subst h1
        rcases List.mem_cons.mp hx with rfl | hx'
        · exact le_refl _
        · exact le_trans ((hle p q).mp hpq) (ih q t hrest x hx')
      · rw [if_neg hpq] at h
        injection h with h1 h2
        subst h1
        rcases List.mem_cons.mp hx with rfl | hx'
        · have hqp : ¬ f x ≤ f q := fun hcf => hpq ((hle x q).mpr hcf)
          exact le_of_not_le hqp
        · exact ih q t hrest x hx'

/-! ## Selection-stage lemmas -/

lemma selectDecision_inRange (tMin tMax : ℚ) (probes : List Probe) (p0 : Probe)
    (hp0 : p0 ∈ probes) (hband : tMin ≤ p0.vmaf ∧ p0.vmaf ≤ tMax) :
    ∃ c, selectDecision tMin tMax probes = some c ∧ c ∈ probes ∧
      (tMin ≤ c.vmaf ∧ c.vmaf ≤ tMax) ∧
      ∀ p ∈ probes, tMin ≤ p.vmaf → p.vmaf ≤ tMax → c.kbps ≤ p.kbps := by
  have hp0f : p0 ∈ probes.filter (fun r => decide (tMin ≤ r.vmaf ∧ r.vmaf ≤ tMax)) :=
    List.mem_filter.mpr ⟨hp0, decide_eq_true hband⟩
  have hne : probes.filter (fun r => decide (tMin ≤ r.vmaf ∧ r.vmaf ≤ tMax)) ≠ [] := by
    intro hnil
    rw [hnil] at hp0f
    exact List.not_mem_nil p0 hp0f
  have hsne : jsSort (fun a b => decide (a.kbps ≤ b.kbps))
      (probes.filter (fun r => decide (tMin ≤ r.vmaf ∧ r.vmaf ≤ tMax))) ≠ [] := by
    intro hnil
    exact hne ((jsSort_eq_nil_iff _ _).mp hnil)
  rcases hcons : jsSort (fun a b => decide (a.kbps ≤ b.kbps))
      (probes.filter (fun r => decide (tMin ≤ r.vmaf ∧ r.vmaf ≤ tMax))) with - | ⟨c, tl⟩
  · exact absurd hcons hsne
  · have hcmem : c ∈ probes.filter (fun r => decide (tMin ≤ r.vmaf ∧ r.vmaf ≤ tMax)) := by
      rw [← mem_jsSort (fun a b => decide (a.kbps ≤ b.kbps)), hcons]
      exact List.mem_cons_self c tl
    obtain ⟨hcp, hcdec⟩ := List.mem_filter.mp hcmem
    have hcband : tMin ≤ c.vmaf ∧ c.vmaf ≤ tMax := of_decide_eq_true hcdec
    refine ⟨c, ?_, hcp, hcband, ?_⟩
    · simp only [selectDecision, hcons]
    · intro p hp h1 h2
      have hpf : p ∈ probes.filter (fun r => decide (tMin ≤ r.vmaf ∧ r.vmaf ≤ tMax)) :=
        List.mem_filter.mpr ⟨hp, decide_eq_true ⟨h1, h2⟩⟩
      exact jsSort_head_min Probe.kbps (fun a b => decide (a.kbps ≤ b.kbps))
        (fun a b => decide_eq_true_iff) _ c tl hcons p hpf

lemma selectDecision_fallback (tMin tMax : ℚ) (probes : List Probe)
    (hne : probes ≠ []) (hall : ∀ p ∈ probes, p.vmaf < tMin) :
    ∃ c, selectDecision tMin tMax probes = some c ∧ c ∈ probes ∧
      ∀ p ∈ probes, p.vmaf ≤ c.vmaf := by
  have h1 : probes.filter (fun r => decide (tMin ≤ r.vmaf ∧ r.vmaf ≤ tMax)) = [] := by
    rw [List.filter_eq_nil_iff]
    intro a ha
    simp only [decide_eq_true_eq, not_and]
    intro hc
    exact absurd hc (not_le.mpr (hall a ha))
  have h2 : probes.filter (fun r => decide (tMin ≤ r.vmaf)) = [] := by
    rw [List.filter_eq_nil_iff]
    intro a ha
    simp only [decide_eq_true_eq]
    exact not_le.mpr (hall a ha)
  have hsne : jsSort (fun a b => decide (b.vmaf ≤ a.vmaf)) probes ≠ [] := by
    intro hnil
    exact hne ((jsSort_eq_nil_iff _ _).mp hnil)
  rcases hcons : jsSort (fun a b => decide (b.vmaf ≤ a.vmaf)) probes with - | ⟨c, tl⟩
  · exact absurd hcons hsne
  · have hcmem : c ∈ probes := by
      rw [← mem_jsSort (fun a b => decide (b.vmaf ≤ a.vmaf)), hcons]
      exact List.mem_cons_self c tl
    refine ⟨c, ?_, hcmem, ?_⟩
    · simp only [selectDecision, h1, h2, jsSort, hcons, List.head?]
    · intro p hp
      have hmin := jsSort_head_min (fun r => -r.vmaf) (fun a b => decide (b.vmaf ≤ a.vmaf))
        (fun a b => by
          rw [decide_eq_true_iff]
          constructor
          · intro hba
            show -a.vmaf ≤ -b.vmaf
            linarith
          · intro hab
            have hab2 : -a.vmaf ≤ -b.vmaf := hab
            linarith)
        probes c tl hcons p hp
      have hmin2 : -c.vmaf ≤ -p.vmaf := hmin
      linarith

end VodBench

namespace VodBench

/-! ## Probe-loop invariants -/

lemma jsRound_mid_range (a b : ℚ) (h : b - a > 200) :
    a ≤ (jsRound ((a + b) / 2) : ℚ) ∧ (jsRound ((a + b) / 2) : ℚ) ≤ b := by
  constructor
  · have h1 := Int.sub_one_lt_floor ((a + b) / 2 + 1/2)
    rw [jsRound]
    linarith
  · have h2 := Int.floor_le ((a + b) / 2 + 1/2)
    rw [jsRound]
    linarith

lemma searchLoop_length (score : ℕ → ℚ → ℚ) (tMin tMax : ℚ) :
    ∀ (rem : ℕ) (a b cur : ℚ) (acc : List Probe),
      (searchLoop score tMin tMax rem a b cur acc).1.length ≤ acc.length + rem := by
  intro rem
  induction rem with
  | zero =>
    intro a b cur acc
    simp [searchLoop]
  | succ m ih =>
    intro a b cur acc
    simp only [searchLoop]
    split_ifs
    all_goals
      first
      | (simp only [List.length_append, List.length_cons, List.length_nil]; omega)
      | (refine le_trans (ih _ _ _ _) ?_
         simp only [List.length_append, List.length_cons, List.length_nil]
         omega)

lemma probe_append_form (score : ℕ → ℚ → ℚ) (q : Probe) (l : List Probe) (c : ℚ)
    (hq : q ∈ l ++ [⟨c, score l.length c⟩]) :
    q ∈ l ∨ ∃ m', q.vmaf = score m' q.kbps := by
  rcases List.mem_append.mp hq with h | h
  · exact Or.inl h
  · rcases List.mem_singleton.mp h with rfl
    exact Or.inr ⟨l.length, rfl⟩

lemma searchLoop_probeForm (score : ℕ → ℚ → ℚ) (tMin tMax : ℚ) :
    ∀ (rem : ℕ) (a b cur : ℚ) (acc : List Probe),
      ∀ p ∈ (searchLoop score tMin tMax rem a b cur acc).1,
        p ∈ acc ∨ ∃ m', p.vmaf = score m' p.kbps := by
  intro rem
  induction rem with
  | zero =>
    intro a b cur acc p hp
    rw [searchLoop] at hp
    exact Or.inl hp
  | succ m ih =>
    intro a b cur acc p hp
    simp only [searchLoop] at hp
    split_ifs at hp
    all_goals
      first
      | exact Or.inl hp
      | exact probe_append_form score p acc cur hp
      | (rcases ih _ _ _ _ p hp with h | h
         · exact probe_append_form score p acc cur h
         · exact Or.inr h)

lemma searchLoop_range (score : ℕ → ℚ → ℚ) (tMin tMax : ℚ) :
    ∀ (rem : ℕ) (a b : ℚ) (acc : List Probe), a ≤ b →
      (∀ p ∈ (searchLoop score tMin tMax rem a b (jsRound ((a + b) / 2) : ℚ) acc).1,
          p ∈ acc ∨ (a ≤ p.kbps ∧ p.kbps ≤ b)) ∧
        a ≤ (searchLoop score tMin tMax rem a b (jsRound ((a + b) / 2) : ℚ) acc).2.1 ∧
        (searchLoop score tMin tMax rem a b (jsRound ((a + b) / 2) : ℚ) acc).2.1 ≤
          (searchLoop score tMin tMax rem a b (jsRound ((a + b) / 2) : ℚ) acc).2.2 ∧
        (searchLoop score tMin tMax rem a b (jsRound ((a + b) / 2) : ℚ) acc).2.2 ≤ b := by
  intro rem
  induction rem with
  | zero =>
    intro a b acc hab
    rw [searchLoop]
    exact ⟨fun p hp => Or.inl hp, le_refl a, hab, le_refl b⟩
  | succ m ih =>
    intro a b acc hab
    by_cases hg : b - a > 200
    · obtain ⟨hc1, hc2⟩ := jsRound_mid_range a b hg
      have hmemstep : ∀ p ∈ acc ++ [(⟨(jsRound ((a + b) / 2) : ℚ),
          score acc.length (jsRound ((a + b) / 2) : ℚ)⟩ : Probe)],
          p ∈ acc ∨ (a ≤ p.kbps ∧ p.kbps ≤ b) := by
        intro p hp
        rcases List.mem_append.mp hp with h | h
        · exact Or.inl h
        · rcases List.mem_singleton.mp h with rfl
          exact Or.inr ⟨hc1, hc2⟩
      have hrec : ∀ (a2 b2 : ℚ), a ≤ a2 → a2 ≤ b2 → b2 ≤ b →
          ∀ (acc2 : List Probe), (∀ p ∈ acc2, p ∈ acc ∨ (a ≤ p.kbps ∧ p.kbps ≤ b)) →
          (∀ p ∈ (searchLoop score tMin tMax m a2 b2
              (jsRound ((a2 + b2) / 2) : ℚ) acc2).1,
              p ∈ acc ∨ (a ≤ p.kbps ∧ p.kbps ≤ b)) ∧
            a ≤ (searchLoop score tMin tMax m a2 b2
              (jsRound ((a2 + b2) / 2) : ℚ) acc2).2.1 ∧
            (searchLoop score tMin tMax m a2 b2
              (jsRound ((a2 + b2) / 2) : ℚ) acc2).2.1 ≤
              (searchLoop score tMin tMax m a2 b2
                (jsRound ((a2 + b2) / 2) : ℚ) acc2).2.2 ∧
            (searchLoop score tMin tMax m a2 b2
              (jsRound ((a2 + b2) / 2) : ℚ) acc2).2.2 ≤ b := by
        intro a2 b2 ha2 hab2 hb2 acc2 hacc2
        obtain ⟨ihm, ihb1, ihb2, ihb3⟩ := ih a2 b2 acc2 hab2
        refine ⟨?_, le_trans ha2 ihb1, ihb2, le_trans ihb3 hb2⟩
        intro p hp
        rcases ihm p hp with h | h
        · exact hacc2 p h
        · exact Or.inr ⟨le_trans ha2 h.1, le_trans h.2 hb2⟩
      rw [searchLoop, if_pos hg]
      dsimp only []
      by_cases hband : tMin ≤ score acc.length (jsRound ((a + b) / 2) : ℚ) ∧
          score acc.length (jsRound ((a + b) / 2) : ℚ) ≤ tMax ∧
          ((acc ++ [(⟨(jsRound ((a + b) / 2) : ℚ),
              score acc.length (jsRound ((a + b) / 2) : ℚ)⟩ : Probe)]).filter
            (fun r => decide (tMin ≤ r.vmaf ∧ r.vmaf ≤ tMax))).length > 0
      · rw [if_pos hband]
        exact ⟨hmemstep, le_refl a, hab, le_refl b⟩
      · rw [if_neg hband]
        by_cases hv1 : tMax < score acc.length (jsRound ((a + b) / 2) : ℚ)
        · rw [if_pos hv1, if_pos hv1]
          by_cases hbrk : (jsRound ((a + (jsRound ((a + b) / 2) : ℚ)) / 2) : ℚ) =
              (jsRound ((a + b) / 2) : ℚ) ∨
              |(jsRound ((a + (jsRound ((a + b) / 2) : ℚ)) / 2) : ℚ) -
                (jsRound ((a + b) / 2) : ℚ)| < 100
          · rw [if_pos hbrk]
            exact ⟨hmemstep, le_refl a, hc1, hc2⟩
          · rw [if_neg hbrk]
            exact hrec a (jsRound ((a + b) / 2) : ℚ) (le_refl a) hc1 hc2 _ hmemstep
        · rw [if_neg hv1, if_neg hv1]
          by_cases hv2 : score acc.length (jsRound ((a + b) / 2) : ℚ) < tMin
          · rw [if_pos hv2, if_pos hv2]
            by_cases hbrk : (jsRound (((jsRound ((a + b) / 2) : ℚ) + b) / 2) : ℚ) =
                (jsRound ((a + b) / 2) : ℚ) ∨
                |(jsRound (((jsRound ((a + b) / 2) : ℚ) + b) / 2) : ℚ) -
                  (jsRound ((a + b) / 2) : ℚ)| < 100
            · rw [if_pos hbrk]
              exact ⟨hmemstep, hc1, hc2, le_refl b⟩
            · rw [if_neg hbrk]
              exact hrec (jsRound ((a + b) / 2) : ℚ) b hc1 hc2 (le_refl b) _ hmemstep
          · rw [if_neg hv2, if_neg hv2]
            by_cases hbrk : (jsRound ((a + (jsRound ((a + b) / 2) : ℚ)) / 2) : ℚ) =
                (jsRound ((a + b) / 2) : ℚ) ∨
                |(jsRound ((a + (jsRound ((a + b) / 2) : ℚ)) / 2) : ℚ) -
                  (jsRound ((a + b) / 2) : ℚ)| < 100
            · rw [if_pos hbrk]
              exact ⟨hmemstep, le_refl a, hc1, hc2⟩
            · rw [if_neg hbrk]
              exact hrec a (jsRound ((a + b) / 2) : ℚ) (le_refl a) hc1 hc2 _ hmemstep
    · rw [searchLoop, if_neg hg]
      exact ⟨fun p hp => Or.inl hp, le_refl a, hab, le_refl b⟩

/-! ## Recorded-probe facts -/

lemma recordedProbes_length (score : ℕ → ℚ → ℚ) (strategy : BitrateStrategy)
    (lo hi tMin tMax : ℚ) :
    (recordedProbes score strategy lo hi tMin tMax).length ≤ strategy.maxProbes + 1 := by
  have hloop := searchLoop_length score tMin tMax strategy.maxProbes lo hi
    (jsRound ((lo + hi) / 2) : ℚ) []
  simp only [List.length_nil, Nat.zero_add] at hloop
  simp only [recordedProbes]
  split_ifs with hcond
  · simp only [List.length_append, List.length_cons, List.length_nil]
    omega
  · omega

lemma recordedProbes_form (score : ℕ → ℚ → ℚ) (strategy : BitrateStrategy)
    (lo hi tMin tMax : ℚ) :
    ∀ p ∈ recordedProbes score strategy lo hi tMin tMax,
      ∃ m', p.vmaf = score m' p.kbps := by
  intro p hp
  simp only [recordedProbes] at hp
  split_ifs at hp with hcond
  · rcases List.mem_append.mp hp with h | h
    · rcases searchLoop_probeForm score tMin tMax strategy.maxProbes lo hi
        (jsRound ((lo + hi) / 2) : ℚ) [] p h with h2 | h2
      · exact absurd h2 (List.not_mem_nil p)
      · exact h2
    · rcases List.mem_singleton.mp h with rfl
      exact ⟨(searchLoop score tMin tMax strategy.maxProbes lo hi
        (jsRound ((lo + hi) / 2) : ℚ) []).1.length, rfl⟩
  · rcases searchLoop_probeForm score tMin tMax strategy.maxProbes lo hi
      (jsRound ((lo + hi) / 2) : ℚ) [] p hp with h2 | h2
    · exact absurd h2 (List.not_mem_nil p)
    · exact h2

lemma recordedProbes_ne_nil (score : ℕ → ℚ → ℚ) (strategy : BitrateStrategy)
    (lo hi tMin tMax : ℚ) (hbudget : 1 ≤ strategy.maxProbes) :
    recordedProbes score strategy lo hi tMin tMax ≠ [] := by
  simp only [recordedProbes]
  split_ifs with hcond
  · simp
  · intro hnil
    apply hcond
    constructor
    · rw [hnil]
      rfl
    · rw [hnil]
      simpa using hbudget

lemma getBitrateStrategy_wf (h : ℕ) :
    0 < (getBitrateStrategy h).min ∧
      (getBitrateStrategy h).min ≤ (getBitrateStrategy h).max ∧
      4 ≤ (getBitrateStrategy h).maxProbes := by
  unfold getBitrateStrategy
  split_ifs <;> exact ⟨by norm_num, by norm_num, by norm_num⟩

end VodBench

namespace VodBench

/-! ## Claim theorems for the decision engine -/

/-- **C5** (confirmed): `probesUsed` — the number of scored candidate probes,
reference encode excluded — never exceeds `strategy.maxProbes + 1`, for every
oracle, height, previous result and target. -/
theorem claim_C5 (score : ℕ → ℚ → ℚ) (height : ℕ) (prev : Option PrevResult)
    (targetVmaf : ℚ) (d : SegmentDecision)
    (h : adaptiveBitrateSearch score height prev targetVmaf = some d) :
    d.probesUsed ≤ (getBitrateStrategy height).maxProbes + 1 := by
  simp only [adaptiveBitrateSearch, adaptiveBitrateSearchCore] at h
  obtain ⟨c, hsel, hd⟩ := Option.map_eq_some'.mp h
  have hlen := recordedProbes_length score (getBitrateStrategy height)
    (adjustSearchRange (getBitrateStrategy height) prev targetVmaf).1
    (adjustSearchRange (getBitrateStrategy height) prev targetVmaf).2
    targetVmaf (targetVmaf + 1/2)
  rw [← hd]
  exact hlen

theorem claim_C5_witness :
    adaptiveBitrateSearch (fun _ _ => 90) 1080 none 95 = some ⟨5750, 90, 6⟩ ∧
      (6 : ℕ) ≤ (getBitrateStrategy 1080).maxProbes + 1 := by
  have heval : adaptiveBitrateSearch (fun _ _ => 90) 1080 none 95 = some ⟨5750, 90, 6⟩ := by
    norm_num [adaptiveBitrateSearch, adaptiveBitrateSearchCore, recordedProbes, searchLoop,
      adjustSearchRange, getBitrateStrategy, selectDecision, jsSort, insertSorted, jsRound,
      List.filter, abs_sub_lt_iff, min_def, max_def]
  exact ⟨heval, claim_C5 (fun _ _ => 90) 1080 none 95 ⟨5750, 90, 6⟩ heval⟩

/-- **C1** (corrected): every probe issued by the binary-search loop lies in
the adjusted interval `[min, max]`, but the step-3 bonus probe is clamped to
`strategy.max` rather than to the adjusted `max`, so it can exceed the
adjusted interval; all probes, bonus included, lie in `[min, strategy.max]`.
(Hypothesis: the previous result, if any, carries an integer bitrate inside
the base range — the situation the engine itself produces.) -/
theorem claim_C1 (score : ℕ → ℚ → ℚ) (height : ℕ) (prev : Option PrevResult)
    (targetVmaf : ℚ) (hwf : wellFormedPrev (getBitrateStrategy height) prev) :
    (∀ p ∈ (searchLoop score targetVmaf (targetVmaf + 1/2)
        (getBitrateStrategy height).maxProbes
        (adjustSearchRange (getBitrateStrategy height) prev targetVmaf).1
        (adjustSearchRange (getBitrateStrategy height) prev targetVmaf).2
        (jsRound (((adjustSearchRange (getBitrateStrategy height) prev targetVmaf).1 +
          (adjustSearchRange (getBitrateStrategy height) prev targetVmaf).2) / 2) : ℚ) []).1,
        (adjustSearchRange (getBitrateStrategy height) prev targetVmaf).1 ≤ p.kbps ∧
          p.kbps ≤ (adjustSearchRange (getBitrateStrategy height) prev targetVmaf).2) ∧
      ∀ p ∈ recordedProbes score (getBitrateStrategy height)
          (adjustSearchRange (getBitrateStrategy height) prev targetVmaf).1
          (adjustSearchRange (getBitrateStrategy height) prev targetVmaf).2
          targetVmaf (targetVmaf + 1/2),
        (adjustSearchRange (getBitrateStrategy height) prev targetVmaf).1 ≤ p.kbps ∧
          p.kbps ≤ (getBitrateStrategy height).max := by
  obtain ⟨hmin0, hminmax, -⟩ := getBitrateStrategy_wf height
  obtain ⟨h1, h2, h3⟩ :=
    adjustSearchRange_wf (getBitrateStrategy height) prev targetVmaf hminmax hwf
  obtain ⟨hmem, hb1, hb2, hb3⟩ := searchLoop_range score targetVmaf (targetVmaf + 1/2)
    (getBitrateStrategy height).maxProbes
    (adjustSearchRange (getBitrateStrategy height) prev targetVmaf).1
    (adjustSearchRange (getBitrateStrategy height) prev targetVmaf).2 [] h2
  constructor
  · intro p hp
    rcases hmem p hp with h | h
    · exact absurd h (List.not_mem_nil p)
    · exact h
  · intro p hp
    simp only [recordedProbes] at hp
    split_ifs at hp with hcond
    · rcases List.mem_append.mp hp with h | h
      · rcases hmem p h with h' | h'
        · exact absurd h' (List.not_mem_nil p)
        · exact ⟨h'.1, le_trans h'.2 h3⟩
      · rcases List.mem_singleton.mp h with rfl
        dsimp only []
        constructor
        · apply le_min (le_trans h2 h3)
          have hpos : 0 < (adjustSearchRange (getBitrateStrategy height) prev targetVmaf).1 :=
            lt_of_lt_of_le hmin0 h1
          have hmaxb := le_trans hb1 hb2
          linarith
        · exact min_le_left _ _
    · rcases hmem p hp with h' | h'
      · exact absurd h' (List.not_mem_nil p)
      · exact ⟨h'.1, le_trans h'.2 h3⟩

/-- **C1** (counterexample to the claim as stated): with the 1080p strategy,
previous result `(3000 kbps, VMAF 94.5)` and target 95, the adjusted range
is `(2100, 3900)`; under an oracle stuck at 90, the bonus probe is issued at
`min(10000, 1.5 × 3900) = 5850 kbps`, outside the adjusted interval. -/
theorem claim_C1_counterexample :
    adjustSearchRange (getBitrateStrategy 1080) (some ⟨3000, 94.5⟩) 95 = (2100, 3900) ∧
      (⟨5850, 90⟩ : Probe) ∈ recordedProbes (fun _ _ => 90) (getBitrateStrategy 1080)
        2100 3900 95 (95 + 1/2) ∧
      ¬ ((5850 : ℚ) ≤ 3900) := by
  refine ⟨?_, ?_, by norm_num⟩
  · norm_num [adjustSearchRange, getBitrateStrategy, jsRound, abs_lt]
  · norm_num [recordedProbes, searchLoop, getBitrateStrategy, jsRound, List.filter,
      abs_sub_lt_iff, min_def, max_def]

theorem claim_C1_witness :
    wellFormedPrev (getBitrateStrategy 1080) (some ⟨3000, 94.5⟩) ∧
      ((adjustSearchRange (getBitrateStrategy 1080) (some ⟨3000, 94.5⟩) 95).1 ≤
          (Probe.mk 5850 90).kbps ∧
        (Probe.mk 5850 90).kbps ≤ (getBitrateStrategy 1080).max) := by
  have hwf : wellFormedPrev (getBitrateStrategy 1080) (some ⟨3000, 94.5⟩) :=
    ⟨3000, by norm_num, by norm_num [getBitrateStrategy], by norm_num [getBitrateStrategy]⟩
  refine ⟨hwf, ?_⟩
  apply (claim_C1 (fun _ _ => 90) 1080 (some ⟨3000, 94.5⟩) 95 hwf).2 ⟨5850, 90⟩
  have hadj : adjustSearchRange (getBitrateStrategy 1080) (some ⟨3000, 94.5⟩) 95 =
      (2100, 3900) := by
    norm_num [adjustSearchRange, getBitrateStrategy, jsRound, abs_lt]
  rw [hadj]
  norm_num [recordedProbes, searchLoop, getBitrateStrategy, jsRound, List.filter,
    abs_sub_lt_iff, min_def, max_def]

/-- **C2** (corrected): with the 1080p strategy, no previous decision,
target 95 and the strictly increasing oracle `clamp(b/100, 0, 100)`, the
engine uses exactly `maxProbes = 6` probes but settles on **9602 kbps**
(score 96.02), just above the claimed `[9400, 9550]` interval: the 100 kbps
convergence cutoff stops the search before it can re-enter the
`[9500, 9550]` in-band bracket.  The chosen bitrate lies in `[9400, 9650]`. -/
theorem claim_C2 :
    adaptiveBitrateSearch clampScore 1080 none 95 = some ⟨9602, 4801/50, 6⟩ ∧
      ((9400 : ℚ) ≤ 9602 ∧ (9602 : ℚ) ≤ 9650) ∧
      (6 : ℕ) ≤ (getBitrateStrategy 1080).maxProbes := by
  refine ⟨?_, ⟨by norm_num, by norm_num⟩, by norm_num [getBitrateStrategy]⟩
  norm_num [adaptiveBitrateSearch, adaptiveBitrateSearchCore, recordedProbes, searchLoop,
    adjustSearchRange, getBitrateStrategy, selectDecision, jsSort, insertSorted, jsRound,
    clampScore, List.filter, abs_sub_lt_iff, min_def, max_def]

/-- **C2** (counterexample to the claim as stated): the decision is 9602 kbps,
which is not in `[9400, 9550]`. -/
theorem claim_C2_counterexample :
    adaptiveBitrateSearch clampScore 1080 none 95 = some ⟨9602, 4801/50, 6⟩ ∧
      ¬ ((9602 : ℚ) ≤ 9550) := by
  refine ⟨?_, by norm_num⟩
  norm_num [adaptiveBitrateSearch, adaptiveBitrateSearchCore, recordedProbes, searchLoop,
    adjustSearchRange, getBitrateStrategy, selectDecision, jsSort, insertSorted, jsRound,
    clampScore, List.filter, abs_sub_lt_iff, min_def, max_def]

/-- **C6** (confirmed): whenever some recorded probe scores inside the
acceptance band `[target, target + 0.5]`, the returned decision is the
lowest-bitrate in-band probe (its score is in-band and its bitrate is a
lower bound of all in-band probes); in particular the selection stage maps
the recorded probes `(3000 → 95.4), (2800 → 95.1)` with target 95 to
`2800 kbps`. -/
theorem claim_C6 :
    (∀ (score : ℕ → ℚ → ℚ) (height : ℕ) (prev : Option PrevResult) (targetVmaf : ℚ),
      (∃ p0 ∈ recordedProbes score (getBitrateStrategy height)
          (adjustSearchRange (getBitrateStrategy height) prev targetVmaf).1
          (adjustSearchRange (getBitrateStrategy height) prev targetVmaf).2
          targetVmaf (targetVmaf + 1/2),
        targetVmaf ≤ p0.vmaf ∧ p0.vmaf ≤ targetVmaf + 1/2) →
      ∃ d, adaptiveBitrateSearch score height prev targetVmaf = some d ∧
        (targetVmaf ≤ d.estVmaf ∧ d.estVmaf ≤ targetVmaf + 1/2) ∧
        ∀ p ∈ recordedProbes score (getBitrateStrategy height)
            (adjustSearchRange (getBitrateStrategy height) prev targetVmaf).1
            (adjustSearchRange (getBitrateStrategy height) prev targetVmaf).2
            targetVmaf (targetVmaf + 1/2),
          targetVmaf ≤ p.vmaf → p.vmaf ≤ targetVmaf + 1/2 →
            d.chosenBitrateKbps ≤ p.kbps) ∧
    selectDecision 95 (95 + 1/2) [⟨3000, 95.4⟩, ⟨2800, 95.1⟩] = some ⟨2800, 95.1⟩ := by
  constructor
  · intro score height prev targetVmaf hex
    obtain ⟨p0, hp0, hband⟩ := hex
    obtain ⟨c, hsel, hcp, hcband, hmin⟩ := selectDecision_inRange targetVmaf
      (targetVmaf + 1/2) _ p0 hp0 hband
    refine ⟨⟨c.kbps, c.vmaf, (recordedProbes score (getBitrateStrategy height)
        (adjustSearchRange (getBitrateStrategy height) prev targetVmaf).1
        (adjustSearchRange (getBitrateStrategy height) prev targetVmaf).2
        targetVmaf (targetVmaf + 1/2)).length⟩, ?_, ⟨hcband.1, hcband.2⟩, ?_⟩
    · simp only [adaptiveBitrateSearch, adaptiveBitrateSearchCore, hsel, Option.map_some']
    · intro p hp ha hb
      exact hmin p hp ha hb
  · norm_num [selectDecision, jsSort, insertSorted, List.filter]

theorem claim_C6_witness :
    (∃ p0 ∈ recordedProbes clampScore (getBitrateStrategy 1080)
        (adjustSearchRange (getBitrateStrategy 1080) none 57).1
        (adjustSearchRange (getBitrateStrategy 1080) none 57).2 57 (57 + 1/2),
      (57 : ℚ) ≤ p0.vmaf ∧ p0.vmaf ≤ 57 + 1/2) ∧
    ∃ d, adaptiveBitrateSearch clampScore 1080 none 57 = some d ∧
      ((57 : ℚ) ≤ d.estVmaf ∧ d.estVmaf ≤ 57 + 1/2) ∧
      ∀ p ∈ recordedProbes clampScore (getBitrateStrategy 1080)
          (adjustSearchRange (getBitrateStrategy 1080) none 57).1
          (adjustSearchRange (getBitrateStrategy 1080) none 57).2 57 (57 + 1/2),
        (57 : ℚ) ≤ p.vmaf → p.vmaf ≤ 57 + 1/2 → d.chosenBitrateKbps ≤ p.kbps := by
  have hhyp : ∃ p0 ∈ recordedProbes clampScore (getBitrateStrategy 1080)
      (adjustSearchRange (getBitrateStrategy 1080) none 57).1
      (adjustSearchRange (getBitrateStrategy 1080) none 57).2 57 (57 + 1/2),
      (57 : ℚ) ≤ p0.vmaf ∧ p0.vmaf ≤ 57 + 1/2 := by
    refine ⟨⟨5750, 115/2⟩, ?_, by norm_num, by norm_num⟩
    norm_num [recordedProbes, searchLoop, adjustSearchRange, getBitrateStrategy, jsRound,
      clampScore, List.filter, abs_sub_lt_iff, min_def, max_def]
  exact ⟨hhyp, claim_C6.1 clampScore 1080 none 57 hhyp⟩

/-- **C7** (confirmed): if every score the oracle can return is strictly
below the target, the engine still returns a decision (no crash), and that
decision echoes a recorded probe whose score is the highest observed one.
(The strategy table guarantees a probe budget of at least 4, so at least one
probe — the loop's or the bonus one — is always recorded.) -/
theorem claim_C7 (score : ℕ → ℚ → ℚ) (height : ℕ) (prev : Option PrevResult)
    (targetVmaf : ℚ) (hcap : ∀ (n : ℕ) (b : ℚ), score n b < targetVmaf) :
    ∃ d, adaptiveBitrateSearch score height prev targetVmaf = some d ∧
      (∃ p ∈ recordedProbes score (getBitrateStrategy height)
          (adjustSearchRange (getBitrateStrategy height) prev targetVmaf).1
          (adjustSearchRange (getBitrateStrategy height) prev targetVmaf).2
          targetVmaf (targetVmaf + 1/2),
        d.chosenBitrateKbps = p.kbps ∧ d.estVmaf = p.vmaf) ∧
      ∀ p ∈ recordedProbes score (getBitrateStrategy height)
          (adjustSearchRange (getBitrateStrategy height) prev targetVmaf).1
          (adjustSearchRange (getBitrateStrategy height) prev targetVmaf).2
          targetVmaf (targetVmaf + 1/2),
        p.vmaf ≤ d.estVmaf := by
  have hbudget : 1 ≤ (getBitrateStrategy height).maxProbes :=
    le_trans (by norm_num) (getBitrateStrategy_wf height).2.2
  have hne := recordedProbes_ne_nil score (getBitrateStrategy height)
    (adjustSearchRange (getBitrateStrategy height) prev targetVmaf).1
    (adjustSearchRange (getBitrateStrategy height) prev targetVmaf).2
    targetVmaf (targetVmaf + 1/2) hbudget
  have hall : ∀ p ∈ recordedProbes score (getBitrateStrategy height)
      (adjustSearchRange (getBitrateStrategy height) prev targetVmaf).1
      (adjustSearchRange (getBitrateStrategy height) prev targetVmaf).2
      targetVmaf (targetVmaf + 1/2), p.vmaf < targetVmaf := by
    intro p hp
    obtain ⟨m', hm⟩ := recordedProbes_form score (getBitrateStrategy height)
      (adjustSearchRange (getBitrateStrategy height) prev targetVmaf).1
      (adjustSearchRange (getBitrateStrategy height) prev targetVmaf).2
      targetVmaf (targetVmaf + 1/2) p hp
    rw [hm]
    exact hcap m' p.kbps
  obtain ⟨c, hsel, hcmem, hmax⟩ := selectDecision_fallback targetVmaf (targetVmaf + 1/2)
    _ hne hall
  refine ⟨⟨c.kbps, c.vmaf, (recordedProbes score (getBitrateStrategy height)
      (adjustSearchRange (getBitrateStrategy height) prev targetVmaf).1
      (adjustSearchRange (getBitrateStrategy height) prev targetVmaf).2
      targetVmaf (targetVmaf + 1/2)).length⟩, ?_, ⟨c, hcmem, rfl, rfl⟩, ?_⟩
  · simp only [adaptiveBitrateSearch, adaptiveBitrateSearchCore, hsel, Option.map_some']
  · intro p hp
    exact hmax p hp

theorem claim_C7_witness :
    (∀ (n : ℕ) (b : ℚ), (fun (_ : ℕ) (_ : ℚ) => (90 : ℚ)) n b < 95) ∧
    ∃ d, adaptiveBitrateSearch (fun _ _ => 90) 1080 none 95 = some d ∧
      (∃ p ∈ recordedProbes (fun _ _ => 90) (getBitrateStrategy 1080)
          (adjustSearchRange (getBitrateStrategy 1080) none 95).1
          (adjustSearchRange (getBitrateStrategy 1080) none 95).2 95 (95 + 1/2),
        d.chosenBitrateKbps = p.kbps ∧ d.estVmaf = p.vmaf) ∧
      ∀ p ∈ recordedProbes (fun _ _ => 90) (getBitrateStrategy 1080)
          (adjustSearchRange (getBitrateStrategy 1080) none 95).1
          (adjustSearchRange (getBitrateStrategy 1080) none 95).2 95 (95 + 1/2),
        p.vmaf ≤ d.estVmaf :=
  ⟨fun _ _ => by norm_num,
    claim_C7 (fun _ _ => 90) 1080 none 95 (fun _ _ => by norm_num)⟩

end VodBench
